import Mathlib

/-!
Shallow embedding of `.GITHUB-MODE/scripts/check-implementation-scoreboard.ts`
from the `japer-technology/gh-openclaw` repository.

The TypeScript module parses `git diff --name-status` output into diff
entries, classifies added paths as planning/spec artifacts, validates a
JSON "implementation scoreboard", and enforces that a change set adding
new spec artifacts also touches the scoreboard file.

Strings are modelled as Lean `String`; the JavaScript string operations
used by the script (`split` on a single-character separator, `trim`,
`startsWith`, `endsWith`, lexicographic `toSorted`) are embedded as
structurally recursive functions over `String.data` so that every
definition evaluates by kernel reduction.
-/

/-- JavaScript `s.split(sep)` for a single-character separator, on the
character list. `split` always yields at least one (possibly empty) field. -/
def splitChar (sep : Char) : List Char → List (List Char)
  | [] => [[]]
  | c :: cs =>
    if c = sep then [] :: splitChar sep cs
    else
      match splitChar sep cs with
      | [] => [[c]]
      | r :: rs => (c :: r) :: rs

/-- JavaScript `s.split(sep)` for a single-character separator. -/
def jsSplit (sep : Char) (s : String) : List String :=
  (splitChar sep s.data).map (fun cs => ⟨cs⟩)

/-- Whitespace stripped by JavaScript `trim`. The diff format only ever
carries ASCII whitespace; the exotic Unicode space classes JS also trims
cannot occur in `git diff --name-status` output. -/
def isJsSpace (c : Char) : Bool :=
  c = ' ' || c = '\t' || c = '\n' || c = '\r' || c = '\x0b' || c = '\x0c'

/-- JavaScript `s.trim()`: drop leading and trailing whitespace. -/
def jsTrim (s : String) : String :=
  ⟨((s.data.dropWhile isJsSpace).reverse.dropWhile isJsSpace).reverse⟩

/-- JavaScript `s.startsWith(p)`. -/
def strStartsWith (s p : String) : Bool :=
  p.data.isPrefixOf s.data

/-- JavaScript `s.endsWith(p)`. -/
def strEndsWith (s p : String) : Bool :=
  p.data.isSuffixOf s.data

/-- Lexicographic comparison of character lists by code point; this is the
order JavaScript's default array sort comparator induces on the (ASCII)
paths handled by the script. -/
def charListLe : List Char → List Char → Bool
  | [], _ => true
  | _ :: _, [] => false
  | a :: as, b :: bs =>
    if a < b then true
    else if b < a then false
    else charListLe as bs

/-- The string order used by `toSorted()` in the script. -/
def strLe (a b : String) : Prop :=
  charListLe a.data b.data = true

instance : DecidableRel strLe := fun a b =>
  inferInstanceAs (Decidable (charListLe a.data b.data = true))

theorem charListLe_cons_iff {a b : Char} {as bs : List Char} :
    charListLe (a :: as) (b :: bs) = true ↔
      a < b ∨ (a = b ∧ charListLe as bs = true) := by
  by_cases h1 : a < b
  · simp [charListLe, h1]
  · by_cases h2 : b < a
    · simp only [charListLe, if_neg h1, if_pos h2]
      constructor
      · intro h; exact absurd h (by simp)
      · rintro (h | ⟨rfl, _⟩)
        · exact absurd h h1
        · exact absurd h2 (lt_irrefl a)
    · have heq : a = b := le_antisymm (not_lt.mp h2) (not_lt.mp h1)
      subst heq
      simp [charListLe, lt_irrefl]

theorem charListLe_total : ∀ (l₁ l₂ : List Char),
    charListLe l₁ l₂ = true ∨ charListLe l₂ l₁ = true := by
  intro l₁
  induction l₁ with
  | nil => intro l₂; left; rfl
  | cons a as ih =>
    intro l₂
    cases l₂ with
    | nil => right; rfl
    | cons b bs =>
      rcases lt_trichotomy a b with h | h | h
      · left; rw [charListLe_cons_iff]; exact Or.inl h
      · subst h
        rcases ih bs with h' | h'
        · left; rw [charListLe_cons_iff]; exact Or.inr ⟨rfl, h'⟩
        · right; rw [charListLe_cons_iff]; exact Or.inr ⟨rfl, h'⟩
      · right; rw [charListLe_cons_iff]; exact Or.inl h

theorem charListLe_trans : ∀ {l₁ l₂ l₃ : List Char},
    charListLe l₁ l₂ = true → charListLe l₂ l₃ = true →
    charListLe l₁ l₃ = true := by
  intro l₁
  induction l₁ with
  | nil => intro l₂ l₃ _ _; rfl
  | cons a as ih =>
    intro l₂ l₃ h1 h2
    cases l₂ with
    | nil => exact absurd h1 (by simp [charListLe])
    | cons b bs =>
      cases l₃ with
      | nil => exact absurd h2 (by simp [charListLe])
      | cons c cs =>
        rw [charListLe_cons_iff] at h1 h2 ⊢
        rcases h1 with hab | ⟨rfl, hab⟩
        · rcases h2 with hbc | ⟨rfl, hbc⟩
          · exact Or.inl (lt_trans hab hbc)
          · exact Or.inl hab
        · rcases h2 with hbc | ⟨rfl, hbc⟩
          · exact Or.inl hbc
          · exact Or.inr ⟨rfl, ih hab hbc⟩

theorem charListLe_antisymm : ∀ {l₁ l₂ : List Char},
    charListLe l₁ l₂ = true → charListLe l₂ l₁ = true → l₁ = l₂ := by
  intro l₁
  induction l₁ with
  | nil =>
    intro l₂ _ h2
    cases l₂ with
    | nil => rfl
    | cons b bs => exact absurd h2 (by simp [charListLe])
  | cons a as ih =>
    intro l₂ h1 h2
    cases l₂ with
    | nil => exact absurd h1 (by simp [charListLe])
    | cons b bs =>
      rw [charListLe_cons_iff] at h1 h2
      rcases h1 with hab | ⟨rfl, hab⟩
      · rcases h2 with hba | ⟨rfl, _⟩
        · exact absurd hba (lt_asymm hab)
        · exact absurd hab (lt_irrefl _)
      · rcases h2 with hba | ⟨_, hba⟩
        · exact absurd hba (lt_irrefl _)
        · rw [ih hab hba]

theorem string_data_eq {a b : String} (h : a.data = b.data) : a = b := by
  cases a; cases b; cases h; rfl

instance : IsTotal String strLe :=
  ⟨fun a b => charListLe_total a.data b.data⟩

instance : IsTrans String strLe :=
  ⟨fun _ _ _ h1 h2 => charListLe_trans h1 h2⟩

instance : IsAntisymm String strLe :=
  ⟨fun _ _ h1 h2 => string_data_eq (charListLe_antisymm h1 h2)⟩

/-- One row of a `git diff --name-status` listing
(type `DiffEntry` in the source). -/
structure DiffEntry where
  status : String
  path : String
deriving DecidableEq, Repr

/-- Constant `SCOREBOARD_PATH` from the source. -/
def SCOREBOARD_PATH : String := ".GITHUB-MODE/runtime/implementation-scoreboard.json"

/-- The fixed planning-area directory that spec artifacts live under
(constant named for the spec-artifact path convention in the source). -/
def SPEC_ARTIFACT_DIR : String := ".GITHUB-MODE/docs/planning/"

/-- Entries contributed by one line of diff output: the body of the
per-line loop in `parseDiffEntries`. Lines with fewer than two
tab-separated fields are skipped; rename/copy statuses (those starting
with `R` or `C`) emit one entry per available path field (JS `parts[2]`
is falsy when absent or empty). -/
def parseLine (line : String) : List DiffEntry :=
  let parts := jsSplit '\t' line
  if parts.length < 2 then []
  else
    let status := jsTrim (parts.getD 0 "")
    if strStartsWith status "R" || strStartsWith status "C" then
      if parts.getD 2 "" ≠ "" then
        [⟨status, jsTrim (parts.getD 1 "")⟩, ⟨status, jsTrim (parts.getD 2 "")⟩]
      else
        [⟨status, jsTrim (parts.getD 1 "")⟩]
    else
      [⟨status, jsTrim (parts.getD 1 "")⟩]

/-- `parseDiffEntries` from the source: split the diff output on newlines
and accumulate the entries of every line in order. -/
def parseDiffEntries (diffOutput : String) : List DiffEntry :=
  (jsSplit '\n' diffOutput).flatMap parseLine

/-- `isSpecArtifact` from the source. -/
def isSpecArtifact (path : String) : Bool :=
  strStartsWith path SPEC_ARTIFACT_DIR && strEndsWith path ".md" &&
    !(strEndsWith path "/README.md")

/-- One step of the `Set` accumulation inside `getAddedSpecArtifacts`:
a JS `Set` keeps the first occurrence of each added path. -/
def addSpecArtifact (acc : List String) (entry : DiffEntry) : List String :=
  if entry.status = "A" ∧ isSpecArtifact entry.path = true then
    if entry.path ∈ acc then acc else acc ++ [entry.path]
  else acc

/-- `getAddedSpecArtifacts` from the source: paths of `"A"`-status entries
that are spec artifacts, deduplicated via a `Set` and sorted
(`[...additions].toSorted()`). -/
def getAddedSpecArtifacts (entries : List DiffEntry) : List String :=
  List.insertionSort strLe (entries.foldl addSpecArtifact [])

/-- `hasScoreboardUpdate` from the source. -/
def hasScoreboardUpdate (entries : List DiffEntry) : Bool :=
  entries.any (fun entry => decide (entry.path = SCOREBOARD_PATH ∧ entry.status ≠ "D"))

-- sanity examples for the embedding (concrete behaviour of the helpers)
example : jsSplit '\t' "A\tfoo/bar.md" = ["A", "foo/bar.md"] := by decide
example : jsSplit '\n' "" = [""] := by decide
example : jsTrim " R100 " = "R100" := by decide
example : isSpecArtifact ".GITHUB-MODE/docs/planning/foo.md" = true := by decide
example : isSpecArtifact ".GITHUB-MODE/docs/planning/README.md" = false := by decide
example : parseDiffEntries "A\tfoo/bar.md" = [⟨"A", "foo/bar.md"⟩] := by decide
example : parseDiffEntries "R100\told/a.md\tnew/a.md" =
    [⟨"R100", "old/a.md"⟩, ⟨"R100", "new/a.md"⟩] := by decide
example : getAddedSpecArtifacts
    [⟨"A", ".GITHUB-MODE/docs/planning/b.md"⟩, ⟨"A", ".GITHUB-MODE/docs/planning/a.md"⟩,
     ⟨"A", ".GITHUB-MODE/docs/planning/b.md"⟩] =
    [".GITHUB-MODE/docs/planning/a.md", ".GITHUB-MODE/docs/planning/b.md"] := by decide

deriving instance DecidableEq for Except

/-- One trackable unit of functionality (type `Capability` in the source).
`state` is kept as a raw string: the TypeScript `ScoreState` union is a
compile-time annotation only, and `validateScoreboard` re-checks the value
at runtime against the allowed set. -/
structure Capability where
  id : String
  description : String
  state : String
  evidence : Option (List String) := none
deriving DecidableEq, Repr

/-- The scoreboard registry (type `Scoreboard` in the source). -/
structure Scoreboard where
  version : Int
  capabilities : List Capability
deriving DecidableEq, Repr

/-- The `allowedStates` list from `validateScoreboard`. -/
def allowedStates : List String := ["spec-only", "scaffold", "operational"]

/-- The per-capability loop of `validateScoreboard`: for each capability in
order, require non-empty `id` and `description`, then no duplicate of an
already-seen id, then a state in the allowed set; fail fast with the
corresponding error. `ids` accumulates the ids already seen. -/
def validateCapabilities (ids : List String) : List Capability → Except String Unit
  | [] => .ok ()
  | c :: rest =>
    if c.id = "" ∨ c.description = "" then
      .error "Each capability requires non-empty id and description fields."
    else if c.id ∈ ids then
      .error ("Duplicate capability id found: " ++ c.id)
    else if c.state ∈ allowedStates then
      validateCapabilities (ids ++ [c.id]) rest
    else
      .error ("Capability " ++ c.id ++ " has invalid state \"" ++ c.state ++
        "\". Expected one of: " ++ String.intercalate ", " allowedStates ++ ".")

/-- `validateScoreboard` from the source; a thrown `Error` is modelled as
`Except.error` carrying the message. (`Array.isArray` is always true in
this model, where `capabilities` is a list.) -/
def validateScoreboard (scoreboard : Scoreboard) : Except String Unit :=
  if scoreboard.capabilities.length = 0 then
    .error "implementation-scoreboard.json must contain at least one capability."
  else
    validateCapabilities [] scoreboard.capabilities

/-- The per-state counters of `getScoreCounts` (the TS
`Record<ScoreState, number>` has exactly these three keys). -/
structure ScoreCounts where
  specOnly : Nat
  scaffold : Nat
  operational : Nat
deriving DecidableEq, Repr

/-- One `counts[capability.state] += 1` step. The final `else` branch is
unreachable for scoreboards that pass `validateScoreboard` (the only way
`getScoreCounts` is invoked in the script); in raw JS an out-of-enum state
would write `NaN` under a fresh key, leaving the three tracked keys
unchanged, which is what this branch models. -/
def bumpCount (counts : ScoreCounts) (state : String) : ScoreCounts :=
  if state = "spec-only" then { counts with specOnly := counts.specOnly + 1 }
  else if state = "scaffold" then { counts with scaffold := counts.scaffold + 1 }
  else if state = "operational" then { counts with operational := counts.operational + 1 }
  else counts

/-- `getScoreCounts` from the source. -/
def getScoreCounts (scoreboard : Scoreboard) : ScoreCounts :=
  scoreboard.capabilities.foldl (fun counts c => bumpCount counts c.state) ⟨0, 0, 0⟩

/-- `renderSummaryMarkdown` from the source. -/
def renderSummaryMarkdown (scoreboard : Scoreboard) : String :=
  let counts := getScoreCounts scoreboard
  let total := scoreboard.capabilities.length
  String.intercalate "\n"
    [ "- Capabilities tracked: **" ++ toString total ++ "**"
    , "- Operational: **" ++ toString counts.operational ++ "**"
    , "- Scaffold: **" ++ toString counts.scaffold ++ "**"
    , "- Spec-only: **" ++ toString counts.specOnly ++ "**"
    , "- Implementation ratio (operational/total): **" ++
        toString counts.operational ++ "/" ++ toString total ++ "**" ]

/-- The lines joined into the error message thrown by
`enforceSpecToImplementationTracking`. -/
def enforcementErrorLines (entries : List DiffEntry) : List String :=
  [ "New planning/spec artifacts were added without updating implementation scoreboard."
  , "Added artifacts:" ]
  ++ (getAddedSpecArtifacts entries).map (fun artifact => "  - " ++ artifact)
  ++ [ "Update " ++ SCOREBOARD_PATH ++
        " in the same change to keep spec-vs-implementation tracking current." ]

/-- `enforceSpecToImplementationTracking` from the source. -/
def enforceSpecToImplementationTracking (entries : List DiffEntry) : Except String Unit :=
  if (getAddedSpecArtifacts entries).length = 0 then .ok ()
  else if hasScoreboardUpdate entries then .ok ()
  else .error (String.intercalate "\n" (enforcementErrorLines entries))

-- sanity examples for the scoreboard embedding
example : validateScoreboard ⟨1, []⟩ =
    .error "implementation-scoreboard.json must contain at least one capability." := by decide
example : validateScoreboard ⟨1, [⟨"a", "d", "scaffold", none⟩]⟩ = .ok () := by decide
example : validateScoreboard ⟨1, [⟨"a", "d", "scaffold", none⟩, ⟨"a", "e", "operational", none⟩]⟩ =
    .error "Duplicate capability id found: a" := by decide
example : validateScoreboard ⟨1, [⟨"a", "d", "bogus", none⟩]⟩ =
    .error "Capability a has invalid state \"bogus\". Expected one of: spec-only, scaffold, operational." := by
  decide
example : getScoreCounts ⟨1, [⟨"a", "d", "scaffold", none⟩, ⟨"b", "e", "operational", none⟩]⟩ =
    ⟨0, 1, 1⟩ := by decide
example : hasScoreboardUpdate [⟨"D", SCOREBOARD_PATH⟩] = false := by decide
example : hasScoreboardUpdate [⟨"M", SCOREBOARD_PATH⟩] = true := by decide
example : enforceSpecToImplementationTracking
    [⟨"A", ".GITHUB-MODE/docs/planning/x.md"⟩, ⟨"M", SCOREBOARD_PATH⟩] = .ok () := by decide

theorem mem_addSpecArtifact {acc : List String} {e : DiffEntry} {p : String} :
    p ∈ addSpecArtifact acc e ↔
      p ∈ acc ∨ (e.status = "A" ∧ isSpecArtifact e.path = true ∧ e.path = p) := by
  unfold addSpecArtifact
  by_cases hc : e.status = "A" ∧ isSpecArtifact e.path = true
  · rw [if_pos hc]
    by_cases hin : e.path ∈ acc
    · rw [if_pos hin]
      constructor
      · exact Or.inl
      · rintro (h | ⟨_, _, rfl⟩)
        · exact h
        · exact hin
    · rw [if_neg hin]
      simp only [List.mem_append, List.mem_singleton]
      constructor
      · rintro (h | rfl)
        · exact Or.inl h
        · exact Or.inr ⟨hc.1, hc.2, rfl⟩
      · rintro (h | ⟨_, _, rfl⟩)
        · exact Or.inl h
        · exact Or.inr rfl
  · rw [if_neg hc]
    constructor
    · exact Or.inl
    · rintro (h | ⟨h1, h2, _⟩)
      · exact h
      · exact absurd ⟨h1, h2⟩ hc

theorem mem_foldl_addSpecArtifact : ∀ (l : List DiffEntry) (acc : List String) (p : String),
    p ∈ l.foldl addSpecArtifact acc ↔
      p ∈ acc ∨ ∃ e, e ∈ l ∧ e.status = "A" ∧ isSpecArtifact e.path = true ∧ e.path = p := by
  intro l
  induction l with
  | nil => intro acc p; simp
  | cons e rest ih =>
    intro acc p
    rw [List.foldl_cons, ih, mem_addSpecArtifact]
    constructor
    · rintro ((h | h) | ⟨e', he', hp⟩)
      · exact Or.inl h
      · exact Or.inr ⟨e, List.mem_cons_self e rest, h⟩
      · exact Or.inr ⟨e', List.mem_cons_of_mem _ he', hp⟩
    · rintro (h | ⟨e', he', hp⟩)
      · exact Or.inl (Or.inl h)
      · rcases List.mem_cons.mp he' with rfl | hm
        · exact Or.inl (Or.inr hp)
        · exact Or.inr ⟨e', hm, hp⟩

theorem nodup_addSpecArtifact {acc : List String} (h : acc.Nodup) (e : DiffEntry) :
    (addSpecArtifact acc e).Nodup := by
  unfold addSpecArtifact
  split
  · split
    · exact h
    next hnotin => simp [List.nodup_append, h, hnotin]
  · exact h

theorem nodup_foldl_addSpecArtifact : ∀ (l : List DiffEntry) (acc : List String),
    acc.Nodup → (l.foldl addSpecArtifact acc).Nodup := by
  intro l
  induction l with
  | nil => intro acc h; exact h
  | cons e rest ih => intro acc h; exact ih _ (nodup_addSpecArtifact h e)

theorem foldl_addSpecArtifact_perm {l₁ l₂ : List DiffEntry} (h : l₁.Perm l₂) :
    (l₁.foldl addSpecArtifact []).Perm (l₂.foldl addSpecArtifact []) := by
  apply List.perm_of_nodup_nodup_toFinset_eq
    (nodup_foldl_addSpecArtifact l₁ [] List.nodup_nil)
    (nodup_foldl_addSpecArtifact l₂ [] List.nodup_nil)
  ext p
  simp only [List.mem_toFinset, mem_foldl_addSpecArtifact, List.not_mem_nil, false_or]
  constructor
  · rintro ⟨e, he, hp⟩; exact ⟨e, h.mem_iff.mp he, hp⟩
  · rintro ⟨e, he, hp⟩; exact ⟨e, h.mem_iff.mpr he, hp⟩

theorem mem_getAddedSpecArtifacts {entries : List DiffEntry} {p : String} :
    p ∈ getAddedSpecArtifacts entries ↔
      ∃ e, e ∈ entries ∧ e.status = "A" ∧ isSpecArtifact e.path = true ∧ e.path = p := by
  unfold getAddedSpecArtifacts
  rw [(List.perm_insertionSort strLe _).mem_iff, mem_foldl_addSpecArtifact]
  simp

theorem nodup_getAddedSpecArtifacts (entries : List DiffEntry) :
    (getAddedSpecArtifacts entries).Nodup :=
  (List.perm_insertionSort strLe _).nodup_iff.mpr
    (nodup_foldl_addSpecArtifact entries [] List.nodup_nil)

theorem sorted_getAddedSpecArtifacts (entries : List DiffEntry) :
    List.Sorted strLe (getAddedSpecArtifacts entries) :=
  List.sorted_insertionSort strLe _

theorem getAddedSpecArtifacts_perm {l₁ l₂ : List DiffEntry} (h : l₁.Perm l₂) :
    getAddedSpecArtifacts l₁ = getAddedSpecArtifacts l₂ := by
  apply List.eq_of_perm_of_sorted (r := strLe)
  · exact ((List.perm_insertionSort strLe _).trans
      (foldl_addSpecArtifact_perm h)).trans (List.perm_insertionSort strLe _).symm
  · exact sorted_getAddedSpecArtifacts l₁
  · exact sorted_getAddedSpecArtifacts l₂

theorem validateCapabilities_ok_iff : ∀ (l : List Capability) (ids : List String),
    validateCapabilities ids l = .ok () ↔
      (∀ c ∈ l, c.id ≠ "" ∧ c.description ≠ "" ∧ c.state ∈ allowedStates) ∧
      (l.map Capability.id).Nodup ∧ (∀ c ∈ l, c.id ∉ ids) := by
  intro l
  induction l with
  | nil => intro ids; simp [validateCapabilities]
  | cons c rest ih =>
    intro ids
    rw [validateCapabilities]
    by_cases h1 : c.id = "" ∨ c.description = ""
    · rw [if_pos h1]
      constructor
      · intro h; exact Except.noConfusion h
      · rintro ⟨hall, -, -⟩
        rcases hall c (List.mem_cons_self c rest) with ⟨hid, hdesc, -⟩
        rcases h1 with h | h
        · exact absurd h hid
        · exact absurd h hdesc
    · rw [if_neg h1]
      push_neg at h1
      by_cases h2 : c.id ∈ ids
      · rw [if_pos h2]
        constructor
        · intro h; exact Except.noConfusion h
        · rintro ⟨-, -, hnotin⟩
          exact absurd h2 (hnotin c (List.mem_cons_self c rest))
      · rw [if_neg h2]
        by_cases h3 : c.state ∈ allowedStates
        · rw [if_pos h3, ih]
          constructor
          · rintro ⟨hall, hnodup, hnot⟩
            refine ⟨?_, ?_, ?_⟩
            · intro c' hc'
              rcases List.mem_cons.mp hc' with rfl | hm
              · exact ⟨h1.1, h1.2, h3⟩
              · exact hall c' hm
            · rw [List.map_cons, List.nodup_cons]
              refine ⟨?_, hnodup⟩
              intro hmem
              obtain ⟨c', hc', hcid⟩ := List.mem_map.mp hmem
              apply hnot c' hc'
              exact List.mem_append_right _ (by rw [hcid]; exact List.mem_singleton_self _)
            · intro c' hc'
              rcases List.mem_cons.mp hc' with rfl | hm
              · exact h2
              · intro hmem; exact (hnot c' hm) (List.mem_append_left _ hmem)
          · rintro ⟨hall, hnodup, hnot⟩
            refine ⟨?_, ?_, ?_⟩
            · intro c' hc'; exact hall c' (List.mem_cons_of_mem _ hc')
            · rw [List.map_cons, List.nodup_cons] at hnodup; exact hnodup.2
            · intro c' hc'
              intro hmem
              rcases List.mem_append.mp hmem with hm | hm
              · exact (hnot c' (List.mem_cons_of_mem _ hc')) hm
              · rw [List.map_cons, List.nodup_cons] at hnodup
                exact hnodup.1 (List.mem_map.mpr ⟨c', hc', List.mem_singleton.mp hm⟩)
        · rw [if_neg h3]
          constructor
          · intro h; exact Except.noConfusion h
          · rintro ⟨hall, -, -⟩
            exact absurd (hall c (List.mem_cons_self c rest)).2.2 h3

theorem except_error_iff_not_ok (v : Except String Unit) :
    (∃ m, v = .error m) ↔ ¬ (v = .ok ()) := by
  cases v with
  | ok u => cases u; simp
  | error m => simp

/-- C2 counterexample: the claim asserts `isSpecArtifact "docs/planning/foo.md"`
is true, but the classifier requires the `.GITHUB-MODE/docs/planning/` area
directory, so the path without that leading directory is rejected. -/
theorem isSpecArtifact_claim_counterexample :
    isSpecArtifact "docs/planning/foo.md" = false := by decide

/-- C2 (amended): with the planning-area directory spelled in full,
`isSpecArtifact ".GITHUB-MODE/docs/planning/foo.md"` is true while the
area's README, a non-`.md` file, and a path outside the area are each
rejected; in general a path qualifies iff it starts with
`.GITHUB-MODE/docs/planning/`, ends with `.md`, and does not end with
`/README.md`. -/
theorem isSpecArtifact_amended :
    isSpecArtifact ".GITHUB-MODE/docs/planning/foo.md" = true ∧
    isSpecArtifact ".GITHUB-MODE/docs/planning/README.md" = false ∧
    isSpecArtifact ".GITHUB-MODE/docs/planning/foo.txt" = false ∧
    isSpecArtifact "other/foo.md" = false ∧
    (∀ path : String, isSpecArtifact path = true ↔
      (strStartsWith path SPEC_ARTIFACT_DIR = true ∧ strEndsWith path ".md" = true ∧
        strEndsWith path "/README.md" = false)) := by
  refine ⟨by decide, by decide, by decide, by decide, ?_⟩
  intro path
  unfold isSpecArtifact
  cases hs : strStartsWith path SPEC_ARTIFACT_DIR <;>
    cases hm : strEndsWith path ".md" <;>
      cases hr : strEndsWith path "/README.md" <;> simp

/-- C5: `hasScoreboardUpdate` is true exactly when some entry targets the
scoreboard path with a status other than `"D"`; a lone deletion of the
scoreboard does not count. -/
theorem hasScoreboardUpdate_spec :
    (∀ entries : List DiffEntry,
      hasScoreboardUpdate entries = true ↔
        ∃ e, e ∈ entries ∧ e.path = SCOREBOARD_PATH ∧ e.status ≠ "D") ∧
    hasScoreboardUpdate [⟨"D", SCOREBOARD_PATH⟩] = false := by
  refine ⟨?_, by decide⟩
  intro entries
  unfold hasScoreboardUpdate
  rw [List.any_eq_true]
  simp

/-- C4: `validateScoreboard` errors exactly on an empty capability list, an
empty id or description, a state outside the three-value enumeration, or a
duplicated id; equivalently it succeeds exactly on well-formed scoreboards. -/
theorem validateScoreboard_error_iff (sb : Scoreboard) :
    ((∃ m, validateScoreboard sb = .error m) ↔
      (sb.capabilities = [] ∨
        (∃ c ∈ sb.capabilities,
          c.id = "" ∨ c.description = "" ∨ c.state ∉ allowedStates) ∨
        ¬ (sb.capabilities.map Capability.id).Nodup)) ∧
    (validateScoreboard sb = .ok () ↔
      (sb.capabilities ≠ [] ∧
        (∀ c ∈ sb.capabilities,
          c.id ≠ "" ∧ c.description ≠ "" ∧ c.state ∈ allowedStates) ∧
        (sb.capabilities.map Capability.id).Nodup)) := by
  have hok : validateScoreboard sb = .ok () ↔
      (sb.capabilities ≠ [] ∧
        (∀ c ∈ sb.capabilities,
          c.id ≠ "" ∧ c.description ≠ "" ∧ c.state ∈ allowedStates) ∧
        (sb.capabilities.map Capability.id).Nodup) := by
    unfold validateScoreboard
    by_cases hemp : sb.capabilities.length = 0
    · rw [if_pos hemp]
      have hnil : sb.capabilities = [] := List.length_eq_zero.mp hemp
      constructor
      · intro h; exact Except.noConfusion h
      · rintro ⟨hne, -, -⟩; exact absurd hnil hne
    · rw [if_neg hemp, validateCapabilities_ok_iff]
      constructor
      · rintro ⟨hall, hnodup, -⟩
        exact ⟨fun h => hemp (by rw [h]; rfl), hall, hnodup⟩
      · rintro ⟨-, hall, hnodup⟩
        exact ⟨hall, hnodup, fun c _ => List.not_mem_nil _⟩
  refine ⟨?_, hok⟩
  rw [except_error_iff_not_ok, hok]
  constructor
  · intro h
    by_cases hnil : sb.capabilities = []
    · exact Or.inl hnil
    · by_cases hnodup : (sb.capabilities.map Capability.id).Nodup
      · right; left
        by_contra hno
        push_neg at hno
        apply h
        refine ⟨hnil, ?_, hnodup⟩
        intro c hc
        exact hno c hc
      · exact Or.inr (Or.inr hnodup)
  · rintro (hnil | ⟨c, hc, hviol⟩ | hnodup)
    · rintro ⟨hne, -, -⟩; exact hne hnil
    · rintro ⟨-, hall, -⟩
      rcases hall c hc with ⟨h1, h2, h3⟩
      rcases hviol with h | h | h
      · exact h1 h
      · exact h2 h
      · exact h h3
    · rintro ⟨-, -, hnd⟩; exact hnodup hnd

/-- C3 counterexample: in a scoreboard whose first capability has an invalid
state and whose second has an empty id, the error raised is the
invalid-state (rule-4) error, not the rule-2 non-empty-id/description
error the claim predicts. -/
theorem validateScoreboard_order_counterexample :
    (∃ c ∈ ([⟨"a", "desc", "bogus", none⟩, ⟨"", "desc", "spec-only", none⟩] :
        List Capability), c.id = "" ∨ c.description = "") ∧
    (∃ c ∈ ([⟨"a", "desc", "bogus", none⟩, ⟨"", "desc", "spec-only", none⟩] :
        List Capability), c.state ∉ allowedStates) ∧
    validateScoreboard ⟨1, [⟨"a", "desc", "bogus", none⟩, ⟨"", "desc", "spec-only", none⟩]⟩ =
      .error "Capability a has invalid state \"bogus\". Expected one of: spec-only, scaffold, operational." ∧
    ("Capability a has invalid state \"bogus\". Expected one of: spec-only, scaffold, operational." ≠
      "Each capability requires non-empty id and description fields.") := by
  decide

/-- C3 (amended): `validateScoreboard` checks rule 1 (non-empty list) first
and then walks the capabilities in order, checking rules 2, 3 and 4 for
each capability before moving to the next, failing fast on the first
violating capability; so when one capability has an empty id or description
and an earlier capability has an invalid state, the invalid-state error is
the one raised. -/
theorem validateScoreboard_failfast :
    (∀ (ids : List String) (c : Capability) (rest : List Capability),
      c.id = "" ∨ c.description = "" →
      validateCapabilities ids (c :: rest) =
        .error "Each capability requires non-empty id and description fields.") ∧
    (∀ (ids : List String) (c : Capability) (rest : List Capability),
      c.id ≠ "" → c.description ≠ "" → c.id ∈ ids →
      validateCapabilities ids (c :: rest) =
        .error ("Duplicate capability id found: " ++ c.id)) ∧
    (∀ (ids : List String) (c : Capability) (rest : List Capability),
      c.id ≠ "" → c.description ≠ "" → c.id ∉ ids → c.state ∉ allowedStates →
      validateCapabilities ids (c :: rest) =
        .error ("Capability " ++ c.id ++ " has invalid state \"" ++ c.state ++
          "\". Expected one of: " ++ "spec-only, scaffold, operational" ++ ".")) ∧
    (∀ (ids : List String) (c : Capability) (rest : List Capability),
      c.id ≠ "" → c.description ≠ "" → c.id ∉ ids → c.state ∈ allowedStates →
      validateCapabilities ids (c :: rest) = validateCapabilities (ids ++ [c.id]) rest) ∧
    (∀ sb : Scoreboard, sb.capabilities.length ≠ 0 →
      validateScoreboard sb = validateCapabilities [] sb.capabilities) ∧
    validateScoreboard ⟨1, [⟨"a", "desc", "bogus", none⟩, ⟨"", "desc", "spec-only", none⟩]⟩ =
      .error "Capability a has invalid state \"bogus\". Expected one of: spec-only, scaffold, operational." := by
  have hjoin : String.intercalate ", " allowedStates = "spec-only, scaffold, operational" := by
    decide
  refine ⟨?_, ?_, ?_, ?_, ?_, by decide⟩
  · intro ids c rest h
    rw [validateCapabilities, if_pos h]
  · intro ids c rest hid hdesc hmem
    have h1 : ¬ (c.id = "" ∨ c.description = "") := by
      rintro (h | h)
      · exact hid h
      · exact hdesc h
    rw [validateCapabilities, if_neg h1, if_pos hmem]
  · intro ids c rest hid hdesc hmem hstate
    have h1 : ¬ (c.id = "" ∨ c.description = "") := by
      rintro (h | h)
      · exact hid h
      · exact hdesc h
    rw [validateCapabilities, if_neg h1, if_neg hmem, if_neg hstate, hjoin]
  · intro ids c rest hid hdesc hmem hstate
    have h1 : ¬ (c.id = "" ∨ c.description = "") := by
      rintro (h | h)
      · exact hid h
      · exact hdesc h
    rw [validateCapabilities, if_neg h1, if_neg hmem, if_pos hstate]
  · intro sb h
    unfold validateScoreboard
    rw [if_neg h]

theorem validateScoreboard_failfast_witness :
    validateCapabilities [] [⟨"", "d", "spec-only", none⟩] =
      .error "Each capability requires non-empty id and description fields." ∧
    validateCapabilities ["x"] [⟨"x", "d", "scaffold", none⟩] =
      .error "Duplicate capability id found: x" ∧
    validateCapabilities [] [⟨"x", "d", "bogus", none⟩] =
      .error "Capability x has invalid state \"bogus\". Expected one of: spec-only, scaffold, operational." ∧
    validateCapabilities [] [⟨"x", "d", "scaffold", none⟩, ⟨"y", "e", "operational", none⟩] =
      validateCapabilities ["x"] [⟨"y", "e", "operational", none⟩] ∧
    validateScoreboard ⟨1, [⟨"x", "d", "scaffold", none⟩]⟩ =
      validateCapabilities [] [⟨"x", "d", "scaffold", none⟩] :=
  ⟨validateScoreboard_failfast.1 [] _ [] (Or.inl rfl),
   validateScoreboard_failfast.2.1 ["x"] _ [] (by decide) (by decide) (by decide),
   validateScoreboard_failfast.2.2.1 [] _ [] (by decide) (by decide) (by decide) (by decide),
   validateScoreboard_failfast.2.2.2.1 [] _ _ (by decide) (by decide) (by decide) (by decide),
   validateScoreboard_failfast.2.2.2.2.1 _ (by decide)⟩

/-- C1: the enforcement orchestrator succeeds when no spec artifacts were
added, errors exactly when spec artifacts were added without a scoreboard
update, and its message lists every added artifact path and names the
scoreboard path that must be touched. -/
theorem enforceTracking_spec (entries : List DiffEntry) :
    (getAddedSpecArtifacts entries = [] → enforceSpecToImplementationTracking entries = .ok ()) ∧
    ((∃ m, enforceSpecToImplementationTracking entries = .error m) ↔
      (getAddedSpecArtifacts entries ≠ [] ∧ hasScoreboardUpdate entries = false)) ∧
    (∀ m, enforceSpecToImplementationTracking entries = .error m →
      (m = String.intercalate "\n" (enforcementErrorLines entries) ∧
       (∀ a ∈ getAddedSpecArtifacts entries,
          ("  - " ++ a) ∈ enforcementErrorLines entries) ∧
       ("Update " ++ SCOREBOARD_PATH ++
          " in the same change to keep spec-vs-implementation tracking current.") ∈
            enforcementErrorLines entries)) := by
  unfold enforceSpecToImplementationTracking
  by_cases hemp : (getAddedSpecArtifacts entries).length = 0
  · rw [if_pos hemp]
    refine ⟨fun _ => rfl, ?_, ?_⟩
    · constructor
      · rintro ⟨m, hm⟩; exact Except.noConfusion hm
      · rintro ⟨hne, -⟩; exact absurd (List.length_eq_zero.mp hemp) hne
    · intro m hm; exact Except.noConfusion hm
  · rw [if_neg hemp]
    have hne : getAddedSpecArtifacts entries ≠ [] := fun h => hemp (by rw [h]; rfl)
    by_cases hupd : hasScoreboardUpdate entries = true
    · rw [if_pos hupd]
      refine ⟨fun h => absurd h hne, ?_, ?_⟩
      · constructor
        · rintro ⟨m, hm⟩; exact Except.noConfusion hm
        · rintro ⟨-, hf⟩; rw [hupd] at hf; exact Bool.noConfusion hf
      · intro m hm; exact Except.noConfusion hm
    · rw [if_neg hupd]
      have hf : hasScoreboardUpdate entries = false := by
        cases hv : hasScoreboardUpdate entries
        · rfl
        · exact absurd hv hupd
      refine ⟨fun h => absurd h hne, ?_, ?_⟩
      · constructor
        · intro _; exact ⟨hne, hf⟩
        · intro _; exact ⟨_, rfl⟩
      · intro m hm
        have hm' : m = String.intercalate "\n" (enforcementErrorLines entries) := by
          injection hm with h; exact h.symm
        refine ⟨hm', ?_, ?_⟩
        · intro a ha
          unfold enforcementErrorLines
          exact List.mem_append.mpr (Or.inl (List.mem_append.mpr
            (Or.inr (List.mem_map.mpr ⟨a, ha, rfl⟩))))
        · unfold enforcementErrorLines
          exact List.mem_append.mpr (Or.inr (List.mem_singleton_self _))

theorem enforceTracking_spec_witness :
    (getAddedSpecArtifacts [⟨"A", ".GITHUB-MODE/docs/planning/alpha.md"⟩] ≠ [] ∧
     hasScoreboardUpdate [⟨"A", ".GITHUB-MODE/docs/planning/alpha.md"⟩] = false) ∧
    (∃ m, enforceSpecToImplementationTracking
        [⟨"A", ".GITHUB-MODE/docs/planning/alpha.md"⟩] = .error m) ∧
    (getAddedSpecArtifacts [⟨"M", "README.md"⟩] = [] ∧
     enforceSpecToImplementationTracking [⟨"M", "README.md"⟩] = .ok ()) :=
  ⟨⟨by decide, by decide⟩,
   (enforceTracking_spec _).2.1.mpr ⟨by decide, by decide⟩,
   ⟨by decide, (enforceTracking_spec _).1 (by decide)⟩⟩

/-- C6: `getAddedSpecArtifacts` returns exactly the paths of `"A"`-status
spec-artifact entries, without duplicates, sorted ascending in the
lexicographic string order, and the result is invariant under permutation
of the input. -/
theorem getAddedSpecArtifacts_spec (entries : List DiffEntry) :
    (∀ p, p ∈ getAddedSpecArtifacts entries ↔
      ∃ e, e ∈ entries ∧ e.status = "A" ∧ isSpecArtifact e.path = true ∧ e.path = p) ∧
    (getAddedSpecArtifacts entries).Nodup ∧
    List.Sorted strLe (getAddedSpecArtifacts entries) ∧
    (∀ entries' : List DiffEntry, entries.Perm entries' →
      getAddedSpecArtifacts entries' = getAddedSpecArtifacts entries) :=
  ⟨fun _ => mem_getAddedSpecArtifacts, nodup_getAddedSpecArtifacts entries,
   sorted_getAddedSpecArtifacts entries,
   fun _ h => (getAddedSpecArtifacts_perm h).symm⟩

theorem getAddedSpecArtifacts_spec_witness :
    getAddedSpecArtifacts
        [⟨"A", ".GITHUB-MODE/docs/planning/b.md"⟩, ⟨"A", ".GITHUB-MODE/docs/planning/a.md"⟩,
         ⟨"A", ".GITHUB-MODE/docs/planning/b.md"⟩] =
      [".GITHUB-MODE/docs/planning/a.md", ".GITHUB-MODE/docs/planning/b.md"] ∧
    getAddedSpecArtifacts
        [⟨"A", ".GITHUB-MODE/docs/planning/a.md"⟩, ⟨"A", ".GITHUB-MODE/docs/planning/b.md"⟩,
         ⟨"A", ".GITHUB-MODE/docs/planning/b.md"⟩] =
      getAddedSpecArtifacts
        [⟨"A", ".GITHUB-MODE/docs/planning/b.md"⟩, ⟨"A", ".GITHUB-MODE/docs/planning/a.md"⟩,
         ⟨"A", ".GITHUB-MODE/docs/planning/b.md"⟩] :=
  ⟨by decide,
   (getAddedSpecArtifacts_spec _).2.2.2 _ (List.Perm.swap _ _ _)⟩

/-- C7: the rename line `R100<TAB>old/a.md<TAB>new/a.md` parses to two
entries sharing status `"R100"` with the old and new path in order; in
general any line of at least two fields whose trimmed status starts with
`R` or `C` yields one entry per available (non-empty) path field, all
sharing that status. -/
theorem parseDiffEntries_rename_spec :
    parseDiffEntries "R100\told/a.md\tnew/a.md" =
      [⟨"R100", "old/a.md"⟩, ⟨"R100", "new/a.md"⟩] ∧
    (∀ line : String,
      2 ≤ (jsSplit '\t' line).length →
      (strStartsWith (jsTrim ((jsSplit '\t' line).getD 0 "")) "R" = true ∨
       strStartsWith (jsTrim ((jsSplit '\t' line).getD 0 "")) "C" = true) →
      parseLine line =
        (if (jsSplit '\t' line).getD 2 "" ≠ "" then
          [⟨jsTrim ((jsSplit '\t' line).getD 0 ""), jsTrim ((jsSplit '\t' line).getD 1 "")⟩,
           ⟨jsTrim ((jsSplit '\t' line).getD 0 ""), jsTrim ((jsSplit '\t' line).getD 2 "")⟩]
        else
          [⟨jsTrim ((jsSplit '\t' line).getD 0 ""), jsTrim ((jsSplit '\t' line).getD 1 "")⟩]) ∧
      (∀ e ∈ parseLine line, e.status = jsTrim ((jsSplit '\t' line).getD 0 ""))) := by
  refine ⟨by decide, ?_⟩
  intro line hlen hrc
  have hnl : ¬ ((jsSplit '\t' line).length < 2) := not_lt.mpr hlen
  have hor : (strStartsWith (jsTrim ((jsSplit '\t' line).getD 0 "")) "R" ||
      strStartsWith (jsTrim ((jsSplit '\t' line).getD 0 "")) "C") = true := by
    rcases hrc with h | h
    · rw [h]; rfl
    · rw [h, Bool.or_true]
  have hform : parseLine line =
      (if (jsSplit '\t' line).getD 2 "" ≠ "" then
        [⟨jsTrim ((jsSplit '\t' line).getD 0 ""), jsTrim ((jsSplit '\t' line).getD 1 "")⟩,
         ⟨jsTrim ((jsSplit '\t' line).getD 0 ""), jsTrim ((jsSplit '\t' line).getD 2 "")⟩]
      else
        [⟨jsTrim ((jsSplit '\t' line).getD 0 ""), jsTrim ((jsSplit '\t' line).getD 1 "")⟩]) := by
    simp only [parseLine]
    rw [if_neg hnl, if_pos hor]
  refine ⟨hform, ?_⟩
  intro e he
  rw [hform] at he
  by_cases h2 : (jsSplit '\t' line).getD 2 "" ≠ ""
  · rw [if_pos h2] at he
    rcases List.mem_cons.mp he with rfl | he'
    · rfl
    · rcases List.mem_singleton.mp he' with rfl
      rfl
  · rw [if_neg h2] at he
    rcases List.mem_singleton.mp he with rfl
    rfl

theorem parseDiffEntries_rename_spec_witness :
    parseLine "C75\tsrc/x.ts\tsrc/y.ts" =
      [⟨"C75", "src/x.ts"⟩, ⟨"C75", "src/y.ts"⟩] ∧
    (∀ e ∈ parseLine "C75\tsrc/x.ts\tsrc/y.ts", e.status = "C75") := by
  have h := parseDiffEntries_rename_spec.2 "C75\tsrc/x.ts\tsrc/y.ts" (by decide)
    (Or.inr (by decide))
  refine ⟨by decide, fun e he => ?_⟩
  rw [h.2 e he]
  decide

/-- C8: blank lines and lines with fewer than two tab-separated fields
contribute no entries: such a line parses to the empty entry list, and
`parseDiffEntries` equals its restriction to the well-formed lines. -/
theorem parseDiffEntries_skip_spec :
    (∀ line : String, (jsSplit '\t' line).length < 2 → parseLine line = []) ∧
    parseLine "" = [] ∧
    (∀ s : String, parseDiffEntries s =
      ((jsSplit '\n' s).filter
        (fun l => decide (2 ≤ (jsSplit '\t' l).length))).flatMap parseLine) := by
  have hskip : ∀ line : String, (jsSplit '\t' line).length < 2 → parseLine line = [] := by
    intro line h
    simp only [parseLine]
    rw [if_pos h]
  refine ⟨hskip, hskip "" (by decide), ?_⟩
  intro s
  unfold parseDiffEntries
  induction jsSplit '\n' s with
  | nil => rfl
  | cons l rest ih =>
    by_cases h : 2 ≤ (jsSplit '\t' l).length
    · simp [List.filter_cons, h, ih]
    · have hlt : (jsSplit '\t' l).length < 2 := not_le.mp h
      simp [List.filter_cons, h, ih, hskip l hlt]

theorem parseDiffEntries_skip_spec_witness :
    (jsSplit '\t' "justonefield").length < 2 ∧
    parseLine "justonefield" = [] ∧
    parseDiffEntries "A\tx.md\n\nbadline" = [⟨"A", "x.md"⟩] :=
  ⟨by decide, parseDiffEntries_skip_spec.1 "justonefield" (by decide), by decide⟩

/-- C9: an entry renaming the scoreboard file away (status starting with
`R`, path equal to the scoreboard path, as the old-path side of a rename
line parses to) satisfies the guard: `hasScoreboardUpdate` is true and the
orchestrator succeeds even when new spec artifacts were added. -/
theorem renameAway_satisfies_guard (entries : List DiffEntry) (e : DiffEntry)
    (hmem : e ∈ entries) (hpath : e.path = SCOREBOARD_PATH)
    (hstat : strStartsWith e.status "R" = true) :
    hasScoreboardUpdate entries = true ∧
    enforceSpecToImplementationTracking entries = .ok () := by
  have hD : e.status ≠ "D" := by
    intro hd
    rw [hd] at hstat
    exact absurd hstat (by decide)
  have hupd : hasScoreboardUpdate entries = true := by
    unfold hasScoreboardUpdate
    rw [List.any_eq_true]
    exact ⟨e, hmem, by simp [hpath, hD]⟩
  refine ⟨hupd, ?_⟩
  unfold enforceSpecToImplementationTracking
  by_cases hemp : (getAddedSpecArtifacts entries).length = 0
  · rw [if_pos hemp]
  · rw [if_neg hemp, if_pos hupd]

theorem renameAway_satisfies_guard_witness :
    hasScoreboardUpdate
        [⟨"R100", SCOREBOARD_PATH⟩, ⟨"A", ".GITHUB-MODE/docs/planning/x.md"⟩] = true ∧
    enforceSpecToImplementationTracking
        [⟨"R100", SCOREBOARD_PATH⟩, ⟨"A", ".GITHUB-MODE/docs/planning/x.md"⟩] = .ok () :=
  renameAway_satisfies_guard _ ⟨"R100", SCOREBOARD_PATH⟩ (by decide) (by decide) (by decide)

theorem foldl_bumpCount_sum : ∀ (l : List Capability) (cs : ScoreCounts),
    (∀ c ∈ l, c.state ∈ allowedStates) →
    ((l.foldl (fun counts c => bumpCount counts c.state) cs).specOnly +
     (l.foldl (fun counts c => bumpCount counts c.state) cs).scaffold +
     (l.foldl (fun counts c => bumpCount counts c.state) cs).operational) =
      cs.specOnly + cs.scaffold + cs.operational + l.length := by
  intro l
  induction l with
  | nil => intro cs _; simp
  | cons c rest ih =>
    intro cs hall
    rw [List.foldl_cons, ih _ (fun c' hc' => hall c' (List.mem_cons_of_mem _ hc'))]
    have hc : c.state = "spec-only" ∨ c.state = "scaffold" ∨ c.state = "operational" := by
      simpa [allowedStates] using hall c (List.mem_cons_self c rest)
    have hsum : (bumpCount cs c.state).specOnly + (bumpCount cs c.state).scaffold +
        (bumpCount cs c.state).operational =
          cs.specOnly + cs.scaffold + cs.operational + 1 := by
      rcases hc with h | h | h
      · rw [h]
        show cs.specOnly + 1 + cs.scaffold + cs.operational =
          cs.specOnly + cs.scaffold + cs.operational + 1
        omega
      · rw [h]
        show cs.specOnly + (cs.scaffold + 1) + cs.operational =
          cs.specOnly + cs.scaffold + cs.operational + 1
        omega
      · rw [h]
        show cs.specOnly + cs.scaffold + (cs.operational + 1) =
          cs.specOnly + cs.scaffold + cs.operational + 1
        omega
    rw [hsum, List.length_cons]
    omega

/-- C10: for scoreboards whose states all lie in the three-value enumeration,
the per-state counts sum to the number of capabilities, and the rendered
summary reports that same number as the tracked total and as the
denominator of the operational/total ratio. -/
theorem scoreCounts_render_spec (sb : Scoreboard)
    (h : ∀ c ∈ sb.capabilities, c.state ∈ allowedStates) :
    ((getScoreCounts sb).specOnly + (getScoreCounts sb).scaffold +
      (getScoreCounts sb).operational = sb.capabilities.length) ∧
    renderSummaryMarkdown sb = String.intercalate "\n"
      [ "- Capabilities tracked: **" ++ toString sb.capabilities.length ++ "**"
      , "- Operational: **" ++ toString (getScoreCounts sb).operational ++ "**"
      , "- Scaffold: **" ++ toString (getScoreCounts sb).scaffold ++ "**"
      , "- Spec-only: **" ++ toString (getScoreCounts sb).specOnly ++ "**"
      , "- Implementation ratio (operational/total): **" ++
          toString (getScoreCounts sb).operational ++ "/" ++
          toString sb.capabilities.length ++ "**" ] := by
  constructor
  · have := foldl_bumpCount_sum sb.capabilities ⟨0, 0, 0⟩ h
    simpa [getScoreCounts] using this
  · rfl

theorem scoreCounts_render_spec_witness :
    (∀ c ∈ ([⟨"a", "d1", "spec-only", none⟩, ⟨"b", "d2", "operational", none⟩,
              ⟨"c", "d3", "operational", none⟩] : List Capability),
        c.state ∈ allowedStates) ∧
    ((getScoreCounts ⟨2, [⟨"a", "d1", "spec-only", none⟩, ⟨"b", "d2", "operational", none⟩,
        ⟨"c", "d3", "operational", none⟩]⟩).specOnly +
      (getScoreCounts ⟨2, [⟨"a", "d1", "spec-only", none⟩, ⟨"b", "d2", "operational", none⟩,
        ⟨"c", "d3", "operational", none⟩]⟩).scaffold +
      (getScoreCounts ⟨2, [⟨"a", "d1", "spec-only", none⟩, ⟨"b", "d2", "operational", none⟩,
        ⟨"c", "d3", "operational", none⟩]⟩).operational =
        (Scoreboard.mk 2 [⟨"a", "d1", "spec-only", none⟩, ⟨"b", "d2", "operational", none⟩,
          ⟨"c", "d3", "operational", none⟩]).capabilities.length) :=
  ⟨by decide, (scoreCounts_render_spec _ (by decide)).1⟩
